import Mathlib

/-!
Verification development for the beneficiary-data management repository
(spreadsheet import, column auto-mapping, duplicate detection, export).

The JavaScript/TypeScript source is shallowly embedded: strings are Lean
`String`s manipulated through their underlying character lists (the source
only applies `toLowerCase`/`trim`/`includes`/`padStart` to ASCII data, so
the ASCII embeddings below coincide with the JS behaviour on all inputs
appearing in the modelled code paths); JS objects used as string-keyed
maps are embedded as insertion-ordered association lists; `undefined` is
`Option.none`; falsiness of a JS string is emptiness, of a JS number is
being zero.
-/

/-- Embedding of JS `String.prototype.toLowerCase` (ASCII range, which is
all the source ever lowercases). -/
def lowerStr (s : String) : String := String.mk (s.data.map Char.toLower)

/-- Embedding of JS `String.prototype.trim`: drop whitespace from both ends. -/
def trimStr (s : String) : String :=
  String.mk (((s.data.dropWhile Char.isWhitespace).reverse.dropWhile Char.isWhitespace).reverse)

/-- Embedding of the JS idiom `String(val || '')` applied to an optional string:
`undefined` and `''` both become `''`. -/
def strOrEmpty (v : Option String) : String :=
  match v with
  | none => ""
  | some s => s

/-- Helper for `strIncludes`: does `pat` occur as a contiguous sublist of `s`? -/
def containsSubAux (pat : List Char) : List Char → Bool
  | [] => pat.isEmpty
  | c :: rest => pat.isPrefixOf (c :: rest) || containsSubAux pat rest

/-- Embedding of JS `s.includes(pat)` (substring containment; every string
includes the empty string). -/
def strIncludes (s pat : String) : Bool := containsSubAux pat.data s.data

/-- Embedding of JS `s.padStart(2, '0')`. -/
def padStart2 (s : String) : String :=
  if s.length < 2 then String.mk (List.replicate (2 - s.length) '0') ++ s else s

/-- Embedding of JS `Array.prototype.join('|')`. -/
def joinBar : List String → String
  | [] => ""
  | [s] => s
  | s :: rest => s ++ "|" ++ joinBar rest

/-- One entry of the fixed target schema: a database field key with its
human-readable label (the `{ key, label }` objects of the source). -/
structure DbField where
  key : String
  label : String
deriving DecidableEq

/-- The fixed target schema `dbFields` of `ColumnMapper` (FileUpload.tsx),
in source declaration order. -/
def dbFields : List DbField := [
  ⟨"last_name", "Last Name"⟩,
  ⟨"first_name", "First Name"⟩,
  ⟨"middle_name", "Middle Name"⟩,
  ⟨"extension_name", "Extension Name (Jr., Sr., III, etc.)"⟩,
  ⟨"birth_month", "Birth Month"⟩,
  ⟨"birth_day", "Birth Day"⟩,
  ⟨"birth_year", "Birth Year"⟩,
  ⟨"sex", "Sex"⟩,
  ⟨"barangay", "Barangay"⟩,
  ⟨"psgc_city", "PSGC City"⟩,
  ⟨"city", "City"⟩,
  ⟨"province", "Province"⟩,
  ⟨"type_of_assistance", "Type of Assistance"⟩,
  ⟨"amount", "Amount"⟩,
  ⟨"philsys_number", "PhilSys Number"⟩,
  ⟨"beneficiary_uniq", "Beneficiary ID"⟩,
  ⟨"contact_number", "Contact Number"⟩,
  ⟨"target_sector", "Target Sector"⟩,
  ⟨"sub_category", "Sub Category"⟩,
  ⟨"civil_status", "Civil Status"⟩]

/-- The `COLUMN_HEADERS` schema of `BeneficiaryList` (same keys as `dbFields`,
slightly different labels), in source declaration order. -/
def COLUMN_HEADERS : List DbField := [
  ⟨"last_name", "Last Name"⟩,
  ⟨"first_name", "First Name"⟩,
  ⟨"middle_name", "Middle Name"⟩,
  ⟨"extension_name", "Extension Name"⟩,
  ⟨"birth_month", "Birth Month"⟩,
  ⟨"birth_day", "Birth Day"⟩,
  ⟨"birth_year", "Birth Year"⟩,
  ⟨"sex", "Sex"⟩,
  ⟨"barangay", "Barangay"⟩,
  ⟨"psgc_city", "PSGC City"⟩,
  ⟨"city", "City"⟩,
  ⟨"province", "Province"⟩,
  ⟨"type_of_assistance", "Type of Assistance"⟩,
  ⟨"amount", "Amount"⟩,
  ⟨"philsys_number", "PhilSys Number"⟩,
  ⟨"beneficiary_uniq", "Beneficiary ID"⟩,
  ⟨"contact_number", "Contact Number"⟩,
  ⟨"target_sector", "Target Sector"⟩,
  ⟨"sub_category", "Sub Category"⟩,
  ⟨"civil_status", "Civil Status"⟩]

/-- The normalization `column.toLowerCase().trim()` applied to a source
header before matching (ColumnMapper auto-mapping effect). -/
def normalizeHeader (column : String) : String := trimStr (lowerStr column)

/-- Tier (a): case-insensitive exact match of the normalized header against a
field key (`field.key.toLowerCase() === normalizedColumn`). -/
def tierKeyExact (n : String) (f : DbField) : Bool := lowerStr f.key == n

/-- Tier (b): case-insensitive exact match against a field label. -/
def tierLabelExact (n : String) (f : DbField) : Bool := lowerStr f.label == n

/-- Tier (c): substring containment in either direction against a field key
(`normalizedColumn.includes(key) || key.includes(normalizedColumn)`). -/
def tierKeySub (n : String) (f : DbField) : Bool :=
  strIncludes n (lowerStr f.key) || strIncludes (lowerStr f.key) n

/-- Tier (d): substring containment in either direction against a field label. -/
def tierLabelSub (n : String) (f : DbField) : Bool :=
  strIncludes n (lowerStr f.label) || strIncludes (lowerStr f.label) n

/-- The auto-mapping suggestion for one source header, as computed (per
column) by the `useEffect` of `ColumnMapper`: four matching tiers tried in
order, first match wins, the Bool records `exactMatch`. -/
def suggestMapping (column : String) : Option (String × Bool) :=
  match dbFields.find? (tierKeyExact (normalizeHeader column)) with
  | some f => some (f.key, true)
  | none =>
    match dbFields.find? (tierLabelExact (normalizeHeader column)) with
    | some f => some (f.key, true)
    | none =>
      match dbFields.find? (tierKeySub (normalizeHeader column)) with
      | some f => some (f.key, false)
      | none =>
        match dbFields.find? (tierLabelSub (normalizeHeader column)) with
        | some f => some (f.key, false)
        | none => none

/-- Column mappings: the `mappings: Record<string, string>` JS object,
embedded as an insertion-ordered association list with unique keys. -/
abbrev Mapping := List (String × String)

/-- Embedding of `mappings[column]` read with JS falsiness in mind:
an absent key and an empty value are both reported as `""`. -/
def objGet (m : Mapping) (k : String) : String :=
  (((m.find? (fun p => p.1 == k)).map (fun p => p.2)).getD "")

/-- Embedding of `setMappings(prev => ({ ...prev, [column]: dbField }))`
(`handleMappingChange` in the app root): update the key in place if present,
otherwise append it. -/
def objSet (m : Mapping) (k v : String) : Mapping :=
  if m.any (fun p => p.1 == k) then m.map (fun p => if p.1 == k then (k, v) else p)
  else m ++ [(k, v)]

/-- The loop body of `applyAutoMappings`: for one suggestion entry, if the
column's mapping in the captured `mappings` object `m0` is not established
(falsy), record the suggested field. -/
def autoMapStep (m0 m : Mapping) (column : String) : Mapping :=
  match suggestMapping column with
  | some (f, _) => if objGet m0 column == "" then objSet m column f else m
  | none => m

/-- The loop body of `applyExactAutoMappings`: additionally requires the
suggestion to be marked `exactMatch`. -/
def exactMapStep (m0 m : Mapping) (column : String) : Mapping :=
  match suggestMapping column with
  | some (f, e) => if objGet m0 column == "" && e then objSet m column f else m
  | none => m

/-- The `applyAutoMappings` button handler: walk the suggestion entries (one
per source column having a suggestion, in column order) applying
`autoMapStep`. The establishment check reads the captured object `m0`
throughout, as the source closure does. -/
def applyAutoMappings (columns : List String) (m0 : Mapping) : Mapping :=
  columns.foldl (autoMapStep m0) m0

/-- The `applyExactAutoMappings` button handler: like `applyAutoMappings` but
only suggestions marked `exactMatch` are written. -/
def applyExactAutoMappings (columns : List String) (m0 : Mapping) : Mapping :=
  columns.foldl (exactMapStep m0) m0

/-- The `onChange` handler of the per-field select in `ColumnMapper`: find the
column currently mapped to `dbField`; the clear runs only under the JS
truthiness guard `if (existingColumn)`, so a previously-mapped column whose
name is the empty string is left mapped; then, if a non-empty column `v` was
selected, map `v` to `dbField`. -/
def selectFieldChange (m : Mapping) (dbField v : String) : Mapping :=
  let existing := (m.find? (fun p => p.2 == dbField)).map (fun p => p.1)
  let m1 := match existing with
    | some c => if c != "" then objSet m c "" else m
    | none => m
  if v != "" then objSet m1 v dbField else m1

/-- The one-to-one invariant claimed of the column mapping: two entries
carrying the same established (non-empty) target field are the same entry. -/
def OneToOne (m : Mapping) : Prop :=
  ∀ p ∈ m, ∀ q ∈ m, p.2 ≠ "" → p.2 = q.2 → p = q

/-- Well-formedness of the JS-object embedding: keys are unique. -/
def KeysNodup (m : Mapping) : Prop := (m.map (fun p => p.1)).Nodup

/-- One beneficiary record (`BeneficiaryData`): the twenty schema fields,
plus team association and storage identifier. Optional fields embed the
TS optional (possibly `undefined`) properties; `amount` is numeric. -/
structure Beneficiary where
  last_name : Option String := none
  first_name : Option String := none
  middle_name : Option String := none
  extension_name : Option String := none
  birth_month : Option String := none
  birth_day : Option String := none
  birth_year : Option String := none
  sex : Option String := none
  barangay : Option String := none
  psgc_city : Option String := none
  city : Option String := none
  province : Option String := none
  type_of_assistance : Option String := none
  amount : Option Int := none
  philsys_number : Option String := none
  beneficiary_uniq : Option String := none
  contact_number : Option String := none
  target_sector : Option String := none
  sub_category : Option String := none
  civil_status : Option String := none
  team_id : Option String := none
  docId : Option String := none
deriving DecidableEq

/-- Dynamic access `beneficiary[key]` for the string-valued schema fields
(`amount`, the one numeric field, is handled separately by every caller,
mirroring its special-casing in the source). -/
def getStrField (b : Beneficiary) : String → Option String
  | "last_name" => b.last_name
  | "first_name" => b.first_name
  | "middle_name" => b.middle_name
  | "extension_name" => b.extension_name
  | "birth_month" => b.birth_month
  | "birth_day" => b.birth_day
  | "birth_year" => b.birth_year
  | "sex" => b.sex
  | "barangay" => b.barangay
  | "psgc_city" => b.psgc_city
  | "city" => b.city
  | "province" => b.province
  | "type_of_assistance" => b.type_of_assistance
  | "philsys_number" => b.philsys_number
  | "beneficiary_uniq" => b.beneficiary_uniq
  | "contact_number" => b.contact_number
  | "target_sector" => b.target_sector
  | "sub_category" => b.sub_category
  | "civil_status" => b.civil_status
  | _ => none

/-- The per-field emptiness test of `isRowEmpty`
(`value === null || value === undefined || value === '' || value === 0`):
for the numeric `amount` field that is absence or zero; for string fields,
absence or the empty string. -/
def isEmptyVal (b : Beneficiary) (key : String) : Bool :=
  if key == "amount" then b.amount == none || b.amount == some 0
  else getStrField b key == none || getStrField b key == some ""

/-- Embedding of `isRowEmpty`: every `COLUMN_HEADERS` field is empty. -/
def isRowEmpty (b : Beneficiary) : Bool :=
  COLUMN_HEADERS.all (fun h => isEmptyVal b h.key)

/-- Embedding of the data pipeline of `loadBeneficiaries`: attach each
document id as `docId`, then drop the rows `isRowEmpty` classifies empty.
The query/loading-state mechanics around it are not modelled. -/
def loadBeneficiaries (docs : List (String × Beneficiary)) : List Beneficiary :=
  (docs.map (fun p => { p.2 with docId := some p.1 })).filter (fun b => !isRowEmpty b)

/-- The `MONTH_MAP` lookup table of the source. -/
def MONTH_MAP : List (String × String) := [
  ("january", "01"), ("february", "02"), ("march", "03"), ("april", "04"),
  ("may", "05"), ("june", "06"), ("july", "07"), ("august", "08"),
  ("september", "09"), ("october", "10"), ("november", "11"), ("december", "12")]

/-- The exact language of the regex `/^([1-9]|1[0-2])$/` used by
`convertMonthToNumber`. -/
def monthNumStrings : List String :=
  ["1", "2", "3", "4", "5", "6", "7", "8", "9", "10", "11", "12"]

/-- Embedding of `convertMonthToNumber`. The source guards the `MONTH_MAP`
lookup behind `isNaN(Number(normalizedMonth))` and otherwise returns
`normalizedMonth`; since `MONTH_MAP` has only the twelve alphabetic month
names as keys (all NaN under JS `Number`), the lookup misses on every
non-NaN string, so both the non-NaN branch and a lookup miss return
`normalizedMonth` and the guard is behaviourally redundant; it is elided. -/
def convertMonthToNumber (month : Option String) : String :=
  match month with
  | none => ""
  | some m =>
    if m == "" then ""
    else
      let normalized := trimStr (lowerStr m)
      if normalized ∈ monthNumStrings then padStart2 normalized
      else
        match MONTH_MAP.lookup normalized with
        | some v => v
        | none => normalized

/-- One formatted export cell of `handleExport`: amount gets a currency
prefix when present and non-zero (JS number formatting via `toLocaleString`
is modelled as plain decimal rendering; no claim depends on it),
`birth_month` is normalized, all other fields render as their value or
the empty string. -/
def exportCell (b : Beneficiary) (key : String) : String :=
  if key == "amount" then
    match b.amount with
    | some a => if a != 0 then "₱" ++ toString a else ""
    | none => ""
  else if key == "birth_month" then convertMonthToNumber b.birth_month
  else strOrEmpty (getStrField b key)

/-- One exported row: every `COLUMN_HEADERS` field rendered under its label. -/
def exportRow (b : Beneficiary) : List (String × String) :=
  COLUMN_HEADERS.map (fun h => (h.label, exportCell b h.key))

/-- Embedding of the row production of `handleExport`: non-empty records,
each formatted by `exportRow` (worksheet serialization not modelled). -/
def handleExport (bs : List Beneficiary) : List (List (String × String)) :=
  (bs.filter (fun b => !isRowEmpty b)).map exportRow

/-- The six lowercased key components of `findDuplicates`
(`String(val || '').toLowerCase()` over the three name fields and the three
birth-date fields). -/
def keyFieldsLower (b : Beneficiary) : List String :=
  [b.last_name, b.first_name, b.middle_name, b.birth_month, b.birth_day, b.birth_year].map
    (fun v => lowerStr (strOrEmpty v))

/-- The composite duplicate key: the six components joined with `'|'`. -/
def dupKey (b : Beneficiary) : String := joinBar (keyFieldsLower b)

/-- One step of the `reduce` in `findDuplicates`: push the record onto its
key's group, creating the group (in insertion order) if the key is new. -/
def addToGroup (acc : List (String × List Beneficiary)) (k : String) (b : Beneficiary) :
    List (String × List Beneficiary) :=
  if acc.any (fun p => p.1 == k) then
    acc.map (fun p => if p.1 == k then (p.1, p.2 ++ [b]) else p)
  else acc ++ [(k, [b])]

/-- The grouping object built by the `reduce` of `findDuplicates`, as an
insertion-ordered association list. -/
def groupByKey (bs : List Beneficiary) : List (String × List Beneficiary) :=
  bs.foldl (fun acc b => addToGroup acc (dupKey b) b) []

/-- Embedding of `findDuplicates`: the groups (in key insertion order) with
more than one member. -/
def findDuplicates (bs : List Beneficiary) : List (List Beneficiary) :=
  ((groupByKey bs).map (fun p => p.2)).filter (fun g => g.length > 1)

/-- The outcome of one `handleRemoveDuplicates` run: the candidate count
reported through the confirmation dialog (`none` when the early no-duplicates
return fires, so no dialog is shown), and the document ids deleted. -/
structure RemoveDuplicatesOutcome where
  reportedCount : Option Nat
  deletedIds : List String
deriving DecidableEq

/-- The `if (docId)` guard before each `deleteDoc`: a present, non-empty id. -/
def truthyDocId (r : Beneficiary) : Option String :=
  match r.docId with
  | some id => if id != "" then some id else none
  | none => none

/-- Embedding of `handleRemoveDuplicates`: recompute the duplicate groups;
bail out if there are none; report the candidate total
(the sum of group sizes minus one); if the caller confirms, delete every
group member after the first that carries a document id. -/
def handleRemoveDuplicates (bs : List Beneficiary) (confirmed : Bool) :
    RemoveDuplicatesOutcome :=
  let groups := findDuplicates bs
  if groups.length == 0 then ⟨none, []⟩
  else
    let total := groups.foldl (fun s g => s + (g.length - 1)) 0
    if confirmed then ⟨some total, (groups.map (fun g => (g.drop 1).filterMap truthyDocId)).flatten⟩
    else ⟨some total, []⟩

/-- The character emitted by one iteration of `getExcelColumnName`
(`String.fromCharCode((index % 26) + 65)`). -/
def excelChar (n : Nat) : Char := Char.ofNat (n % 26 + 65)

/-- Fuel-indexed unfolding of the `while (index >= 0)` loop of
`getExcelColumnName`; each iteration prepends a character and replaces the
index by `Math.floor(index / 26) - 1`, leaving the loop when that is negative
(which on naturals is exactly the `n < 26` case). `labelChars` below
instantiates the fuel with a proven-sufficient bound. -/
def toLabelAux : Nat → Nat → List Char
  | 0, _ => []
  | fuel + 1, n =>
    if n < 26 then [excelChar n] else toLabelAux fuel (n / 26 - 1) ++ [excelChar n]

/-- The character list produced by the `getExcelColumnName` loop on index `n`. -/
def labelChars (n : Nat) : List Char := toLabelAux (n + 1) n

/-- Embedding of `getExcelColumnName`. -/
def getExcelColumnName (n : Nat) : String := String.mk (labelChars n)

/-- Thresholds at which the column label gains a letter: `tierBound k` is
`26 + 26 ^ 2 + ⋯ + 26 ^ k`, so labels of length `k + 1` are exactly those of
the indices in `[tierBound k, tierBound (k + 1))`. -/
def tierBound : Nat → Nat
  | 0 => 0
  | k + 1 => tierBound k * 26 + 26

/-- One header cell of the `onDrop` header loop: the trimmed cell text when
the cell is present with a truthy (non-empty) value, otherwise the
placeholder `"Column "` followed by the column letter. -/
def headerCell (colIdx : Nat) (cell : Option String) : String :=
  match cell with
  | some v => if v != "" then trimStr v else "Column " ++ getExcelColumnName colIdx
  | none => "Column " ++ getExcelColumnName colIdx

/-- Embedding of the header loop of `FileUpload.onDrop`: one header per
column of the decoded range, starting at the range's first column index. -/
def extractHeaders (startCol : Nat) : List (Option String) → List String
  | [] => []
  | cell :: rest => headerCell startCol cell :: extractHeaders (startCol + 1) rest

/-- Emptiness of one optional string field under the strict comparisons of
`isRowEmpty` (`null`, `undefined` or `''`). -/
def emptyOptStr (v : Option String) : Prop := v = none ∨ v = some ""

/-- A record none of whose six duplicate-key components contains the `'|'`
join delimiter. -/
def BarFree (b : Beneficiary) : Prop := ∀ s ∈ keyFieldsLower b, '|' ∉ s.data

/-- A record whose last name contains the join delimiter, colliding with
`cexB` below under `dupKey` (both keys read `a|b|c||||`). -/
def cexA : Beneficiary := { last_name := some "a|b", first_name := some "c" }

/-- A record differing from `cexA` in both name fields yet with the same
composite key, because its first name contains the join delimiter. -/
def cexB : Beneficiary := { last_name := some "a", first_name := some "b|c" }

/-- First of two records forming one duplicate group (same composite key,
distinct document ids). -/
def dupW1 : Beneficiary := { last_name := some "x", docId := some "1" }

/-- Second of two records forming one duplicate group. -/
def dupW2 : Beneficiary := { last_name := some "x", docId := some "2" }

/-- The list stored under one key of the grouping object built by
`findDuplicates` (`[]` when the key is absent). -/
def groupVal (acc : List (String × List Beneficiary)) (k : String) : List Beneficiary :=
  (((acc.find? (fun p => p.1 == k)).map (fun p => p.2)).getD [])

/-! ## Excel column labels (claim C7) -/

theorem toLabelAux_congr :
    ∀ (f1 f2 n : Nat), n < f1 → n < f2 → toLabelAux f1 n = toLabelAux f2 n := by
  intro f1
  induction f1 with
  | zero => intro f2 n h1 _; omega
  | succ g ih =>
    intro f2 n h1 h2
    cases f2 with
    | zero => omega
    | succ h =>
      simp only [toLabelAux]
      by_cases hn : n < 26
      · simp [hn]
      · have hdiv : n / 26 ≤ n := Nat.div_le_self n 26
        simp only [hn, if_false]
        have : toLabelAux g (n / 26 - 1) = toLabelAux h (n / 26 - 1) := by
          apply ih
          · omega
          · omega
        rw [this]

theorem labelChars_eq (n : Nat) :
    labelChars n = if n < 26 then [excelChar n] else labelChars (n / 26 - 1) ++ [excelChar n] := by
  by_cases hn : n < 26
  · rw [if_pos hn]
    simp [labelChars, toLabelAux, hn]
  · rw [if_neg hn]
    have hdiv : n / 26 ≤ n := Nat.div_le_self n 26
    have h1 : labelChars n = toLabelAux n (n / 26 - 1) ++ [excelChar n] := by
      simp [labelChars, toLabelAux, hn]
    rw [h1]
    congr 1
    exact toLabelAux_congr n (n / 26 - 1 + 1) (n / 26 - 1) (by omega) (by omega)

theorem labelChars_ne_nil (n : Nat) : labelChars n ≠ [] := by
  rw [labelChars_eq]
  by_cases hn : n < 26 <;> simp [hn]

theorem excelChar_inj :
    ∀ a, a < 26 → ∀ b, b < 26 → excelChar a = excelChar b → a = b := by decide

theorem labelChars_inj (m : Nat) : ∀ n, labelChars m = labelChars n → m = n := by
  induction m using Nat.strong_induction_on with
  | _ m ih =>
    intro n h
    rw [labelChars_eq, labelChars_eq n] at h
    by_cases hm : m < 26 <;> by_cases hn : n < 26
    · simp only [hm, hn, if_true, List.cons.injEq] at h
      exact excelChar_inj m hm n hn h.1
    · exfalso
      simp only [hm, hn, if_true, if_false] at h
      have hlen := congrArg List.length h
      simp only [List.length_append, List.length_cons, List.length_nil] at hlen
      have h0 : (labelChars (n / 26 - 1)).length = 0 := by omega
      exact labelChars_ne_nil _ (List.length_eq_zero.mp h0)
    · exfalso
      simp only [hm, hn, if_true, if_false] at h
      have hlen := congrArg List.length h
      simp only [List.length_append, List.length_cons, List.length_nil] at hlen
      have h0 : (labelChars (m / 26 - 1)).length = 0 := by omega
      exact labelChars_ne_nil _ (List.length_eq_zero.mp h0)
    · simp only [hm, hn, if_false] at h
      obtain ⟨h1, h2⟩ := List.append_inj' h rfl
      have hc : excelChar m = excelChar n := by
        injection h2 with hc _
      have e1 : excelChar m = excelChar (m % 26) := by
        unfold excelChar; congr 1; omega
      have e2 : excelChar n = excelChar (n % 26) := by
        unfold excelChar; congr 1; omega
      have hmod : m % 26 = n % 26 := by
        apply excelChar_inj (m % 26) (by omega) (n % 26) (by omega)
        rw [← e1, ← e2]; exact hc
      have hmdiv : m / 26 ≤ m := Nat.div_le_self m 26
      have hdiv : m / 26 - 1 = n / 26 - 1 := ih (m / 26 - 1) (by omega) (n / 26 - 1) h1
      omega

theorem labelChars_length :
    ∀ (k n : Nat), (labelChars n).length = k + 1 ↔ tierBound k ≤ n ∧ n < tierBound (k + 1) := by
  intro k
  induction k with
  | zero =>
    intro n
    rw [labelChars_eq]
    have t0 : tierBound 0 = 0 := rfl
    have t1 : tierBound (0 + 1) = 26 := rfl
    by_cases hn : n < 26
    · rw [if_pos hn]
      simp only [List.length_cons, List.length_nil, eq_self_iff_true, true_iff]
      omega
    · rw [if_neg hn]
      simp only [List.length_append, List.length_cons, List.length_nil]
      have hpos : 0 < (labelChars (n / 26 - 1)).length :=
        List.length_pos.mpr (labelChars_ne_nil _)
      omega
  | succ k ihk =>
    intro n
    rw [labelChars_eq]
    have e1 : tierBound (k + 1) = tierBound k * 26 + 26 := rfl
    have e2 : tierBound (k + 1 + 1) = tierBound (k + 1) * 26 + 26 := rfl
    by_cases hn : n < 26
    · rw [if_pos hn]
      simp only [List.length_cons, List.length_nil]
      omega
    · rw [if_neg hn]
      simp only [List.length_append, List.length_cons, List.length_nil]
      have hrec := ihk (n / 26 - 1)
      omega

/-- Claim C7: for every non-negative integer `n`, `getExcelColumnName n`
terminates (it is a total function below) and yields the spreadsheet-style
bijective base-26 label: `0 ↦ "A"`, `25 ↦ "Z"`, `26 ↦ "AA"`, `51 ↦ "AZ"`,
`701 ↦ "ZZ"`, `702 ↦ "AAA"`; the label has `k + 1` letters exactly on the
index interval `[tierBound k, tierBound (k + 1))`, where
`tierBound k = 26 + 26 ^ 2 + ⋯ + 26 ^ k`, so one more letter appears exactly
when `n` reaches `26`, `26 + 26 ^ 2`, `26 + 26 ^ 2 + 26 ^ 3`, and so on; and
the function is injective over all non-negative indices. -/
theorem claim_c7_excel_column_name :
    getExcelColumnName 0 = "A" ∧ getExcelColumnName 25 = "Z" ∧
    getExcelColumnName 26 = "AA" ∧ getExcelColumnName 51 = "AZ" ∧
    getExcelColumnName 701 = "ZZ" ∧ getExcelColumnName 702 = "AAA" ∧
    (∀ k, tierBound (k + 1) = tierBound k + 26 ^ (k + 1)) ∧
    (∀ k n, (getExcelColumnName n).length = k + 1 ↔
      tierBound k ≤ n ∧ n < tierBound (k + 1)) ∧
    ∀ m n, getExcelColumnName m = getExcelColumnName n → m = n := by
  refine ⟨by decide, by decide, by decide, by decide, by decide, by decide, ?_, ?_, ?_⟩
  · intro k
    induction k with
    | zero => decide
    | succ k ihk =>
      have e1 : tierBound (k + 1 + 1) = tierBound (k + 1) * 26 + 26 := rfl
      have e2 : tierBound (k + 1) = tierBound k * 26 + 26 := rfl
      have e3 : (26 : Nat) ^ (k + 1 + 1) = 26 ^ (k + 1) * 26 := pow_succ 26 (k + 1)
      omega
  · intro k n
    have h := labelChars_length k n
    simpa [getExcelColumnName, String.length] using h
  · intro m n h
    apply labelChars_inj m n
    have : (String.mk (labelChars m)).data = (String.mk (labelChars n)).data :=
      congrArg String.data h
    simpa using this

/-- Witness for C7: the characterization applied at the concrete index 30
(a two-letter label), with the interval hypotheses discharged by computation. -/
theorem claim_c7_witness : (getExcelColumnName 30).length = 2 :=
  (claim_c7_excel_column_name.2.2.2.2.2.2.2.1 1 30).mpr (by decide)

/-! ## Header extraction (claim C6) -/

theorem extractHeaders_get? :
    ∀ (cells : List (Option String)) (startCol i : Nat) (cell : Option String),
      cells[i]? = some cell →
      (extractHeaders startCol cells)[i]? = some (headerCell (startCol + i) cell) := by
  intro cells
  induction cells with
  | nil => intro startCol i cell h; simp at h
  | cons c rest ih =>
    intro startCol i cell h
    cases i with
    | zero =>
      simp only [List.getElem?_cons_zero, Option.some.injEq] at h
      subst h
      simp [extractHeaders]
    | succ j =>
      have h' : rest[j]? = some cell := by simpa using h
      have he : startCol + (j + 1) = startCol + 1 + j := by omega
      simp only [extractHeaders, List.getElem?_cons_succ, he]
      exact ih (startCol + 1) j cell h'

/-- Claim C6: header extraction yields one header per column of the range;
a column whose row-0 cell is absent or empty receives the placeholder
`"Column "` followed by its column letter, and every other column receives
its trimmed cell text; on the spec's example row `["Name", "", "Age"]` the
headers are `["Name", "Column B", "Age"]`. -/
theorem claim_c6_extract_headers (startCol : Nat) (cells : List (Option String)) :
    (extractHeaders startCol cells).length = cells.length ∧
    (∀ i cell, cells[i]? = some cell →
      (emptyOptStr cell →
        (extractHeaders startCol cells)[i]? =
          some ("Column " ++ getExcelColumnName (startCol + i))) ∧
      (∀ v, cell = some v → v ≠ "" →
        (extractHeaders startCol cells)[i]? = some (trimStr v))) ∧
    extractHeaders 0 [some "Name", some "", some "Age"] = ["Name", "Column B", "Age"] := by
  refine ⟨?_, ?_, by decide⟩
  · induction cells generalizing startCol with
    | nil => rfl
    | cons c rest ih => simp only [extractHeaders, List.length_cons, ih]
  · intro i cell hcell
    have hg := extractHeaders_get? cells startCol i cell hcell
    constructor
    · intro hblank
      rw [hg]
      rcases hblank with h | h <;> subst h <;> rfl
    · intro v hv hne
      subst hv
      rw [hg]
      have hbne : (v != "") = true := bne_iff_ne.mpr hne
      simp [headerCell, hbne]

/-- Witness for C6: the blank middle column of the spec's example receives
the placeholder header. -/
theorem claim_c6_witness :
    (extractHeaders 0 [some "Name", some "", some "Age"])[1]? =
      some ("Column " ++ getExcelColumnName 1) :=
  ((claim_c6_extract_headers 0 [some "Name", some "", some "Age"]).2.1 1 (some "")
    (by decide)).1 (Or.inr rfl)

/-! ## Auto-mapping suggestions (claims C3 and C10) -/

theorem find?_append_first {α : Type} (p : α → Bool) (l1 l2 : List α) (x : α)
    (hx : p x = true) (hl1 : ∀ g ∈ l1, p g = false) :
    (l1 ++ x :: l2).find? p = some x := by
  induction l1 with
  | nil => simpa using List.find?_cons_of_pos l2 hx
  | cons a t ih =>
    rw [List.cons_append, List.find?_cons_of_neg _ (by simp [hl1 a (List.mem_cons_self a t)])]
    exact ih (fun g hg => hl1 g (List.mem_cons_of_mem a hg))

/-- Claim C3: the suggestion for a source header is produced by the four
matching tiers in order; a header matching no tier gets no suggestion; a
header with a case-insensitive exact key or label match always gets an exact
suggestion (never approximate); an exact suggestion comes from tier (a) or
(b) and an approximate one only exists when no exact match exists at all and
comes from tier (c) or (d). -/
theorem claim_c3_suggestion (column : String) :
    (suggestMapping column = none ↔
      ∀ f ∈ dbFields, tierKeyExact (normalizeHeader column) f = false ∧
        tierLabelExact (normalizeHeader column) f = false ∧
        tierKeySub (normalizeHeader column) f = false ∧
        tierLabelSub (normalizeHeader column) f = false) ∧
    ((∃ f ∈ dbFields, tierKeyExact (normalizeHeader column) f = true ∨
        tierLabelExact (normalizeHeader column) f = true) →
      ∃ k, suggestMapping column = some (k, true)) ∧
    (∀ k, suggestMapping column = some (k, true) →
      ∃ f ∈ dbFields, f.key = k ∧
        (tierKeyExact (normalizeHeader column) f = true ∨
          tierLabelExact (normalizeHeader column) f = true)) ∧
    (∀ k, suggestMapping column = some (k, false) →
      (∀ f ∈ dbFields, tierKeyExact (normalizeHeader column) f = false ∧
        tierLabelExact (normalizeHeader column) f = false) ∧
      ∃ f ∈ dbFields, f.key = k ∧
        (tierKeySub (normalizeHeader column) f = true ∨
          tierLabelSub (normalizeHeader column) f = true)) := by
  unfold suggestMapping
  rcases h1 : dbFields.find? (tierKeyExact (normalizeHeader column)) with _ | f1
  case some =>
    have hm1 := List.mem_of_find?_eq_some h1
    have hp1 := List.find?_some h1
    refine ⟨iff_of_false (by simp) ?_, fun _ => ⟨f1.key, rfl⟩, ?_, ?_⟩
    · intro hall
      have := (hall f1 hm1).1
      rw [hp1] at this
      simp at this
    · intro k hk
      have hk' : f1.key = k := by
        injection hk with h'
        exact congrArg Prod.fst h'
      exact ⟨f1, hm1, hk', Or.inl hp1⟩
    · intro k hk
      simp at hk
  case none =>
    have hn1 : ∀ f ∈ dbFields, tierKeyExact (normalizeHeader column) f = false := by
      intro f hf
      simpa using List.find?_eq_none.mp h1 f hf
    rcases h2 : dbFields.find? (tierLabelExact (normalizeHeader column)) with _ | f2
    case some =>
      have hm2 := List.mem_of_find?_eq_some h2
      have hp2 := List.find?_some h2
      refine ⟨iff_of_false (by simp) ?_, fun _ => ⟨f2.key, rfl⟩, ?_, ?_⟩
      · intro hall
        have := (hall f2 hm2).2.1
        rw [hp2] at this
        simp at this
      · intro k hk
        have hk' : f2.key = k := by
          injection hk with h'
          exact congrArg Prod.fst h'
        exact ⟨f2, hm2, hk', Or.inr hp2⟩
      · intro k hk
        simp at hk
    case none =>
      have hn2 : ∀ f ∈ dbFields, tierLabelExact (normalizeHeader column) f = false := by
        intro f hf
        simpa using List.find?_eq_none.mp h2 f hf
      rcases h3 : dbFields.find? (tierKeySub (normalizeHeader column)) with _ | f3
      case some =>
        have hm3 := List.mem_of_find?_eq_some h3
        have hp3 := List.find?_some h3
        refine ⟨iff_of_false (by simp) ?_, ?_, ?_, ?_⟩
        · intro hall
          have := (hall f3 hm3).2.2.1
          rw [hp3] at this
          simp at this
        · rintro ⟨f, hf, h | h⟩
          · rw [hn1 f hf] at h
            exact absurd h (by simp)
          · rw [hn2 f hf] at h
            exact absurd h (by simp)
        · intro k hk
          simp at hk
        · intro k hk
          have hk' : f3.key = k := by
            injection hk with h'
            exact congrArg Prod.fst h'
          exact ⟨fun f hf => ⟨hn1 f hf, hn2 f hf⟩, f3, hm3, hk', Or.inl hp3⟩
      case none =>
        have hn3 : ∀ f ∈ dbFields, tierKeySub (normalizeHeader column) f = false := by
          intro f hf
          simpa using List.find?_eq_none.mp h3 f hf
        rcases h4 : dbFields.find? (tierLabelSub (normalizeHeader column)) with _ | f4
        case some =>
          have hm4 := List.mem_of_find?_eq_some h4
          have hp4 := List.find?_some h4
          refine ⟨iff_of_false (by simp) ?_, ?_, ?_, ?_⟩
          · intro hall
            have := (hall f4 hm4).2.2.2
            rw [hp4] at this
            simp at this
          · rintro ⟨f, hf, h | h⟩
            · rw [hn1 f hf] at h
              exact absurd h (by simp)
            · rw [hn2 f hf] at h
              exact absurd h (by simp)
          · intro k hk
            simp at hk
          · intro k hk
            have hk' : f4.key = k := by
              injection hk with h'
              exact congrArg Prod.fst h'
            exact ⟨fun f hf => ⟨hn1 f hf, hn2 f hf⟩, f4, hm4, hk', Or.inr hp4⟩
        case none =>
          have hn4 : ∀ f ∈ dbFields, tierLabelSub (normalizeHeader column) f = false := by
            intro f hf
            simpa using List.find?_eq_none.mp h4 f hf
          refine ⟨iff_of_true rfl (fun f hf => ⟨hn1 f hf, hn2 f hf, hn3 f hf, hn4 f hf⟩), ?_, ?_, ?_⟩
          · rintro ⟨f, hf, h | h⟩
            · rw [hn1 f hf] at h
              exact absurd h (by simp)
            · rw [hn2 f hf] at h
              exact absurd h (by simp)
          · intro k hk
            simp at hk
          · intro k hk
            simp at hk

/-- Witness for C3: a header exactly (case-insensitively) matching a field
label receives an exact suggestion. -/
theorem claim_c3_witness : ∃ k, suggestMapping "Last Name" = some (k, true) :=
  (claim_c3_suggestion "Last Name").2.1 ⟨⟨"last_name", "Last Name"⟩, by decide, by decide⟩

/-- Claim C10: when no exact match exists, the whole key-substring tier is
tried before any label is considered, and within a tier the first matching
field in the fixed `dbFields` declaration order wins; in particular the
header `"name"`, contained in several name-field keys, is suggested the
earliest such field, `last_name`. -/
theorem claim_c10_tie_breaking :
    (∀ column f l1 l2,
      (∀ g ∈ dbFields, tierKeyExact (normalizeHeader column) g = false ∧
        tierLabelExact (normalizeHeader column) g = false) →
      dbFields = l1 ++ f :: l2 →
      tierKeySub (normalizeHeader column) f = true →
      (∀ g ∈ l1, tierKeySub (normalizeHeader column) g = false) →
      suggestMapping column = some (f.key, false)) ∧
    (∀ column f l1 l2,
      (∀ g ∈ dbFields, tierKeyExact (normalizeHeader column) g = false ∧
        tierLabelExact (normalizeHeader column) g = false) →
      (∀ g ∈ dbFields, tierKeySub (normalizeHeader column) g = false) →
      dbFields = l1 ++ f :: l2 →
      tierLabelSub (normalizeHeader column) f = true →
      (∀ g ∈ l1, tierLabelSub (normalizeHeader column) g = false) →
      suggestMapping column = some (f.key, false)) ∧
    suggestMapping "name" = some ("last_name", false) := by
  refine ⟨?_, ?_, by decide⟩
  · intro column f l1 l2 hnoex hsplit hf hearlier
    have h1 : dbFields.find? (tierKeyExact (normalizeHeader column)) = none :=
      List.find?_eq_none.mpr (fun g hg => by simp [(hnoex g hg).1])
    have h2 : dbFields.find? (tierLabelExact (normalizeHeader column)) = none :=
      List.find?_eq_none.mpr (fun g hg => by simp [(hnoex g hg).2])
    have h3 : dbFields.find? (tierKeySub (normalizeHeader column)) = some f := by
      rw [hsplit]
      exact find?_append_first _ l1 l2 f hf hearlier
    unfold suggestMapping
    rw [h1, h2, h3]
  · intro column f l1 l2 hnoex hnokey hsplit hf hearlier
    have h1 : dbFields.find? (tierKeyExact (normalizeHeader column)) = none :=
      List.find?_eq_none.mpr (fun g hg => by simp [(hnoex g hg).1])
    have h2 : dbFields.find? (tierLabelExact (normalizeHeader column)) = none :=
      List.find?_eq_none.mpr (fun g hg => by simp [(hnoex g hg).2])
    have h3 : dbFields.find? (tierKeySub (normalizeHeader column)) = none :=
      List.find?_eq_none.mpr (fun g hg => by simp [hnokey g hg])
    have h4 : dbFields.find? (tierLabelSub (normalizeHeader column)) = some f := by
      rw [hsplit]
      exact find?_append_first _ l1 l2 f hf hearlier
    unfold suggestMapping
    rw [h1, h2, h3, h4]

/-- Witness for C10: the header `"middle"` is contained in the key
`middle_name`, the third schema field; with no exact match and no earlier
key-substring match, that field is suggested approximately. -/
theorem claim_c10_witness : suggestMapping "middle" = some ("middle_name", false) :=
  claim_c10_tie_breaking.1 "middle" ⟨"middle_name", "Middle Name"⟩
    [⟨"last_name", "Last Name"⟩, ⟨"first_name", "First Name"⟩]
    (dbFields.drop 3) (by decide) (by decide) (by decide) (by decide)

/-! ## Applying suggestions (claim C4) -/

theorem objGet_objSet_self (m : Mapping) (k v : String) : objGet (objSet m k v) k = v := by
  by_cases hany : m.any (fun p => p.1 == k) = true
  · rw [objSet, if_pos hany, objGet, List.find?_map]
    have hpred : ((fun p : String × String => p.1 == k) ∘
        fun p => if p.1 == k then (k, v) else p) = fun p : String × String => p.1 == k := by
      funext p
      by_cases hp : (p.1 == k) = true
      · simp [Function.comp, hp]
      · simp [Function.comp, hp]
    rw [hpred]
    obtain ⟨x, hx, hxk⟩ := List.any_eq_true.mp hany
    have hsome : (m.find? (fun p => p.1 == k)).isSome = true :=
      List.find?_isSome.mpr ⟨x, hx, hxk⟩
    obtain ⟨p0, hp0⟩ := Option.isSome_iff_exists.mp hsome
    have hp0k := List.find?_some hp0
    have hp1 : p0.1 = k := eq_of_beq hp0k
    rw [hp0]
    simp [hp0k, hp1]
  · rw [objSet, if_neg hany, objGet, List.find?_append]
    have hnone : m.find? (fun p => p.1 == k) = none := by
      rw [List.find?_eq_none]
      intro x hx hxk
      exact hany (List.any_eq_true.mpr ⟨x, hx, hxk⟩)
    rw [hnone, List.find?_cons_of_pos _ (by simp)]
    simp

theorem objGet_objSet_ne (m : Mapping) (k v k' : String) (h : k' ≠ k) :
    objGet (objSet m k v) k' = objGet m k' := by
  have hkk' : (k == k') = false := by
    simp only [beq_eq_false_iff_ne, ne_eq]
    exact fun hh => h hh.symm
  by_cases hany : m.any (fun p => p.1 == k) = true
  · rw [objSet, if_pos hany, objGet, List.find?_map]
    have hpred : ((fun p : String × String => p.1 == k') ∘
        fun p => if p.1 == k then (k, v) else p) = fun p : String × String => p.1 == k' := by
      funext p
      by_cases hp : (p.1 == k) = true
      · have hp1 : p.1 = k := eq_of_beq hp
        simp [Function.comp, hp, hp1, hkk']
      · simp [Function.comp, hp]
    rw [hpred, objGet]
    cases hp0 : m.find? (fun p => p.1 == k') with
    | none => simp
    | some p0 =>
      have hp0k := List.find?_some hp0
      have hne : p0.1 ≠ k := by
        have hp1 : p0.1 = k' := eq_of_beq hp0k
        rw [hp1]
        exact h
      have hneb : (p0.1 == k) = false := beq_eq_false_iff_ne.mpr hne
      simp [hneb, hne]
  · rw [objSet, if_neg hany, objGet, List.find?_append, objGet]
    cases hp0 : m.find? (fun p => p.1 == k') with
    | none =>
      rw [List.find?_cons_of_neg _ (by simp [hkk'])]
      simp
    | some p0 => simp

theorem autoMapStep_none (m0 m : Mapping) (c : String) (hs : suggestMapping c = none) :
    autoMapStep m0 m c = m := by
  unfold autoMapStep
  rw [hs]

theorem autoMapStep_some (m0 m : Mapping) (c f : String) (e : Bool)
    (hs : suggestMapping c = some (f, e)) :
    autoMapStep m0 m c = if objGet m0 c == "" then objSet m c f else m := by
  unfold autoMapStep
  rw [hs]

theorem exactMapStep_none (m0 m : Mapping) (c : String) (hs : suggestMapping c = none) :
    exactMapStep m0 m c = m := by
  unfold exactMapStep
  rw [hs]

theorem exactMapStep_some (m0 m : Mapping) (c f : String) (e : Bool)
    (hs : suggestMapping c = some (f, e)) :
    exactMapStep m0 m c = if objGet m0 c == "" && e then objSet m c f else m := by
  unfold exactMapStep
  rw [hs]

theorem autoMapStep_other (m0 m : Mapping) (c col : String) (h : c ≠ col) :
    objGet (autoMapStep m0 m c) col = objGet m col := by
  rcases hs : suggestMapping c with _ | ⟨f, e⟩
  · rw [autoMapStep_none m0 m c hs]
  · rw [autoMapStep_some m0 m c f e hs]
    by_cases hob : (objGet m0 c == "") = true
    · rw [if_pos hob]
      exact objGet_objSet_ne m c f col (Ne.symm h)
    · rw [if_neg hob]

theorem exactMapStep_other (m0 m : Mapping) (c col : String) (h : c ≠ col) :
    objGet (exactMapStep m0 m c) col = objGet m col := by
  rcases hs : suggestMapping c with _ | ⟨f, e⟩
  · rw [exactMapStep_none m0 m c hs]
  · rw [exactMapStep_some m0 m c f e hs]
    by_cases hob : (objGet m0 c == "" && e) = true
    · rw [if_pos hob]
      exact objGet_objSet_ne m c f col (Ne.symm h)
    · rw [if_neg hob]

theorem applyAuto_frame (m0 : Mapping) (col : String)
    (hc : ∀ f e, suggestMapping col = some (f, e) → objGet m0 col ≠ "") :
    ∀ (cols : List String) (m : Mapping),
      objGet (cols.foldl (autoMapStep m0) m) col = objGet m col := by
  intro cols
  induction cols with
  | nil => intro m; rfl
  | cons c cs ih =>
    intro m
    rw [List.foldl_cons, ih]
    by_cases hcc : c = col
    · subst hcc
      rcases hs : suggestMapping c with _ | ⟨f, e⟩
      · rw [autoMapStep_none m0 m c hs]
      · rw [autoMapStep_some m0 m c f e hs]
        have hob : ¬((objGet m0 c == "") = true) := by
          simp only [beq_iff_eq]
          exact hc f e hs
        rw [if_neg hob]
    · exact autoMapStep_other m0 m c col hcc

theorem applyExact_frame (m0 : Mapping) (col : String)
    (hc : ∀ f e, suggestMapping col = some (f, e) → ¬(objGet m0 col = "" ∧ e = true)) :
    ∀ (cols : List String) (m : Mapping),
      objGet (cols.foldl (exactMapStep m0) m) col = objGet m col := by
  intro cols
  induction cols with
  | nil => intro m; rfl
  | cons c cs ih =>
    intro m
    rw [List.foldl_cons, ih]
    by_cases hcc : c = col
    · subst hcc
      rcases hs : suggestMapping c with _ | ⟨f, e⟩
      · rw [exactMapStep_none m0 m c hs]
      · rw [exactMapStep_some m0 m c f e hs]
        have hob : ¬((objGet m0 c == "" && e) = true) := by
          intro hh
          rcases Bool.and_eq_true_iff.mp hh with ⟨h1, h2⟩
          exact hc f e hs ⟨beq_iff_eq.mp h1, h2⟩
        rw [if_neg hob]
    · exact exactMapStep_other m0 m c col hcc

theorem applyAuto_write (m0 : Mapping) (col f : String) (e : Bool)
    (hs : suggestMapping col = some (f, e)) (hm : objGet m0 col = "") :
    ∀ (cols : List String) (m : Mapping),
      objGet (cols.foldl (autoMapStep m0) m) col =
        if col ∈ cols then f else objGet m col := by
  intro cols
  induction cols with
  | nil => intro m; simp
  | cons c cs ih =>
    intro m
    rw [List.foldl_cons, ih]
    by_cases hcc : c = col
    · subst hcc
      have hstep : autoMapStep m0 m c = objSet m c f := by
        rw [autoMapStep_some m0 m c f e hs, if_pos (by simp [hm])]
      rw [hstep, if_pos (List.mem_cons_self c cs)]
      by_cases hmem : c ∈ cs
      · rw [if_pos hmem]
      · rw [if_neg hmem, objGet_objSet_self]
    · rw [autoMapStep_other m0 m c col hcc]
      have hne : col = c ↔ False := iff_false_intro (fun hh => hcc hh.symm)
      simp [List.mem_cons, hne]

theorem applyExact_write (m0 : Mapping) (col f : String)
    (hs : suggestMapping col = some (f, true)) (hm : objGet m0 col = "") :
    ∀ (cols : List String) (m : Mapping),
      objGet (cols.foldl (exactMapStep m0) m) col =
        if col ∈ cols then f else objGet m col := by
  intro cols
  induction cols with
  | nil => intro m; simp
  | cons c cs ih =>
    intro m
    rw [List.foldl_cons, ih]
    by_cases hcc : c = col
    · subst hcc
      have hstep : exactMapStep m0 m c = objSet m c f := by
        rw [exactMapStep_some m0 m c f true hs, if_pos (by simp [hm])]
      rw [hstep, if_pos (List.mem_cons_self c cs)]
      by_cases hmem : c ∈ cs
      · rw [if_pos hmem]
      · rw [if_neg hmem, objGet_objSet_self]
    · rw [exactMapStep_other m0 m c col hcc]
      have hne : col = c ↔ False := iff_false_intro (fun hh => hcc hh.symm)
      simp [List.mem_cons, hne]

/-- Claim C4: applying all suggestions or only the exact ones never changes
the mapping of a source column with an established (non-empty) mapping; any
column whose observable mapping does change had no established mapping and
receives exactly its suggested field, and under the exact-only application
only an exact suggestion is ever written. -/
theorem claim_c4_apply_preserves (cols : List String) (m0 : Mapping) (col : String) :
    (objGet m0 col ≠ "" →
      objGet (applyAutoMappings cols m0) col = objGet m0 col ∧
      objGet (applyExactAutoMappings cols m0) col = objGet m0 col) ∧
    (objGet (applyAutoMappings cols m0) col ≠ objGet m0 col →
      ∃ f e, suggestMapping col = some (f, e) ∧ objGet m0 col = "" ∧
        objGet (applyAutoMappings cols m0) col = f) ∧
    (objGet (applyExactAutoMappings cols m0) col ≠ objGet m0 col →
      ∃ f, suggestMapping col = some (f, true) ∧ objGet m0 col = "" ∧
        objGet (applyExactAutoMappings cols m0) col = f) := by
  refine ⟨?_, ?_, ?_⟩
  · intro hne
    exact ⟨applyAuto_frame m0 col (fun f e _ => hne) cols m0,
      applyExact_frame m0 col (fun f e _ hand => hne hand.1) cols m0⟩
  · intro hchanged
    rcases hs : suggestMapping col with _ | ⟨f, e⟩
    · exact absurd (applyAuto_frame m0 col (fun f e hh => by rw [hs] at hh; cases hh) cols m0)
        hchanged
    · by_cases hm : objGet m0 col = ""
      · by_cases hmem : col ∈ cols
        · refine ⟨f, e, rfl, hm, ?_⟩
          have hw := applyAuto_write m0 col f e hs hm cols m0
          rw [if_pos hmem] at hw
          exact hw
        · exfalso
          apply hchanged
          have hw := applyAuto_write m0 col f e hs hm cols m0
          rw [if_neg hmem] at hw
          exact hw
      · exact absurd (applyAuto_frame m0 col (fun _ _ _ => hm) cols m0) hchanged
  · intro hchanged
    rcases hs : suggestMapping col with _ | ⟨f, e⟩
    · exact absurd (applyExact_frame m0 col (fun f e hh => by rw [hs] at hh; cases hh) cols m0)
        hchanged
    · cases e with
      | false =>
        exfalso
        apply hchanged
        apply applyExact_frame m0 col ?_ cols m0
        intro f' e' hh hand
        rw [hs] at hh
        injection hh with hh'
        have he' : e' = false := (congrArg Prod.snd hh').symm
        rw [he'] at hand
        cases hand.2
      | true =>
        by_cases hm : objGet m0 col = ""
        · by_cases hmem : col ∈ cols
          · refine ⟨f, rfl, hm, ?_⟩
            have hw := applyExact_write m0 col f hs hm cols m0
            rw [if_pos hmem] at hw
            exact hw
          · exfalso
            apply hchanged
            have hw := applyExact_write m0 col f hs hm cols m0
            rw [if_neg hmem] at hw
            exact hw
        · exact absurd (applyExact_frame m0 col (fun _ _ _ hand => hm hand.1) cols m0) hchanged

/-- Witness for C4: a column already mapped (to `city`) keeps its mapping
through both bulk-apply operations even though it has an exact suggestion. -/
theorem claim_c4_witness :
    objGet (applyAutoMappings ["Last Name"] [("Last Name", "city")]) "Last Name" = "city" ∧
    objGet (applyExactAutoMappings ["Last Name"] [("Last Name", "city")]) "Last Name" = "city" :=
  (claim_c4_apply_preserves ["Last Name"] [("Last Name", "city")] "Last Name").1 (by decide)

/-! ## One-to-one column mapping (claim C5) -/

theorem objSet_mem (m : Mapping) (k v : String) (p : String × String) :
    p ∈ objSet m k v ↔ p = (k, v) ∨ (p ∈ m ∧ p.1 ≠ k) := by
  by_cases hany : m.any (fun q => q.1 == k) = true
  · rw [objSet, if_pos hany]
    simp only [List.mem_map]
    constructor
    · rintro ⟨q, hq, hfq⟩
      by_cases hqk : (q.1 == k) = true
      · left
        rw [← hfq, if_pos hqk]
      · right
        rw [← hfq, if_neg hqk]
        exact ⟨hq, fun hk => hqk (beq_iff_eq.mpr hk)⟩
    · rintro (hpk | ⟨hpm, hpne⟩)
      · obtain ⟨x, hx, hxk⟩ := List.any_eq_true.mp hany
        exact ⟨x, hx, by rw [if_pos hxk, hpk]⟩
      · exact ⟨p, hpm, by rw [if_neg (fun hb => hpne (eq_of_beq hb))]⟩
  · rw [objSet, if_neg hany]
    simp only [List.mem_append, List.mem_singleton]
    constructor
    · rintro (hpm | hpk)
      · refine Or.inr ⟨hpm, ?_⟩
        intro hk
        exact hany (List.any_eq_true.mpr ⟨p, hpm, by rw [hk]; simp⟩)
      · exact Or.inl hpk
    · rintro (hpk | ⟨hpm, _⟩)
      · exact Or.inr hpk
      · exact Or.inl hpm

theorem objSet_keys_any (m : Mapping) (k v : String)
    (hany : m.any (fun q => q.1 == k) = true) :
    (objSet m k v).map (fun p => p.1) = m.map (fun p => p.1) := by
  rw [objSet, if_pos hany, List.map_map]
  apply List.map_congr_left
  intro q _
  by_cases hqk : (q.1 == k) = true
  · simp only [Function.comp, if_pos hqk]
    exact (eq_of_beq hqk).symm
  · simp only [Function.comp, if_neg hqk]

theorem KeysNodup_objSet (m : Mapping) (k v : String) (h : KeysNodup m) :
    KeysNodup (objSet m k v) := by
  by_cases hany : m.any (fun q => q.1 == k) = true
  · unfold KeysNodup
    rw [objSet_keys_any m k v hany]
    exact h
  · unfold KeysNodup
    rw [objSet, if_neg hany, List.map_append]
    refine List.nodup_append.mpr ⟨h, List.nodup_singleton k, ?_⟩
    intro a ha hb
    rw [List.map_singleton, List.mem_singleton] at hb
    subst hb
    obtain ⟨q, hq, hqa⟩ := List.mem_map.mp ha
    exact hany (List.any_eq_true.mpr ⟨q, hq, by rw [hqa]; simp⟩)

/-- Counterexample for C5 as stated: the mapping state reached from the empty
mapping by one press of the apply-all-suggestions button, with source columns
`last_name` and `Last Name` (both of which exactly suggest the field
`last_name`), maps two distinct source columns to the same target field, so
the one-to-one invariant does not hold at every reachable mapping state. -/
theorem claim_c5_counterexample :
    ("last_name", "last_name") ∈ applyAutoMappings ["last_name", "Last Name"] [] ∧
    ("Last Name", "last_name") ∈ applyAutoMappings ["last_name", "Last Name"] [] ∧
    ¬ OneToOne (applyAutoMappings ["last_name", "Last Name"] []) := by
  refine ⟨by decide, by decide, ?_⟩
  intro h
  have h2 := h ("last_name", "last_name") (by decide) ("Last Name", "last_name") (by decide)
    (by decide) rfl
  exact absurd (congrArg Prod.fst h2) (by decide)

/-- Claim C5 (amended): the per-field select handler preserves the one-to-one
invariant on mappings whose established column names are non-empty — starting
from a well-formed mapping in which at most one source column carries any
given established field and no entry's column name is the empty string,
selecting a column for a field first clears the column previously mapped to
that field and leaves a mapping that is again one-to-one. The invariant does
not hold at every reachable state: applying auto-mapping suggestions can map
two columns to the same field (see the counterexample), and the select
handler's JS truthiness guard skips the clear when the previously-mapped
column is named by the empty string, so the non-empty-name proviso is
necessary. -/
theorem claim_c5_select_one_to_one (m : Mapping) (hWF : KeysNodup m) (h1 : OneToOne m)
    (hkeys : ∀ p ∈ m, p.1 ≠ "") (dbField v : String) :
    KeysNodup (selectFieldChange m dbField v) ∧
    OneToOne (selectFieldChange m dbField v) ∧
    (∀ p ∈ m, p.2 = dbField → p.2 ≠ "" → p.1 ≠ v →
      objGet (selectFieldChange m dbField v) p.1 = "") := by
  rcases hex : m.find? (fun p => p.2 == dbField) with _ | pf
  · have hnone : ∀ q ∈ m, q.2 ≠ dbField := by
      intro q hq hq2
      have := List.find?_eq_none.mp hex q hq
      exact this (beq_iff_eq.mpr hq2)
    have hsc : selectFieldChange m dbField v =
        (if v != "" then objSet m v dbField else m) := by
      unfold selectFieldChange
      rw [hex]
      rfl
    rw [hsc]
    by_cases hv : (v != "") = true
    · rw [if_pos hv]
      refine ⟨KeysNodup_objSet m v dbField hWF, ?_, ?_⟩
      · intro p hp q hq hpne hpq
        rcases (objSet_mem m v dbField p).mp hp with hp' | ⟨hpm, hpk⟩ <;>
          rcases (objSet_mem m v dbField q).mp hq with hq' | ⟨hqm, hqk⟩
        · rw [hp', hq']
        · exfalso
          apply hnone q hqm
          rw [← hpq, hp']
        · exfalso
          apply hnone p hpm
          rw [hpq, hq']
        · exact h1 p hpm q hqm hpne hpq
      · intro p hp hpd _ _
        exact absurd hpd (hnone p hp)
    · rw [if_neg hv]
      refine ⟨hWF, h1, ?_⟩
      intro p hp hpd _ _
      exact absurd hpd (hnone p hp)
  · have hmpf : pf ∈ m := List.mem_of_find?_eq_some hex
    have hpfb : (pf.2 == dbField) = true := by
      have hb := List.find?_some hex
      exact hb
    have hpf2 : pf.2 = dbField := eq_of_beq hpfb
    have hpf1 : pf.1 ≠ "" := hkeys pf hmpf
    have hsc : selectFieldChange m dbField v =
        (if v != "" then objSet (objSet m pf.1 "") v dbField else objSet m pf.1 "") := by
      unfold selectFieldChange
      rw [hex]
      show (if (v != "") = true then
          objSet (if (pf.1 != "") = true then objSet m pf.1 "" else m) v dbField
        else (if (pf.1 != "") = true then objSet m pf.1 "" else m)) = _
      rw [if_pos (bne_iff_ne.mpr hpf1)]
    have hm1nodup : KeysNodup (objSet m pf.1 "") := KeysNodup_objSet m pf.1 "" hWF
    have hm1mem : ∀ r, r ∈ objSet m pf.1 "" ↔ r = (pf.1, "") ∨ (r ∈ m ∧ r.1 ≠ pf.1) :=
      fun r => objSet_mem m pf.1 "" r
    have hm1one : OneToOne (objSet m pf.1 "") := by
      intro p hp q hq hpne hpq
      rcases (hm1mem p).mp hp with hp' | ⟨hpm, hpk⟩
      · exact absurd (congrArg Prod.snd hp') hpne
      · rcases (hm1mem q).mp hq with hq' | ⟨hqm, hqk⟩
        · exfalso
          apply hpne
          rw [hpq, hq']
        · exact h1 p hpm q hqm hpne hpq
    have hm1nof : ∀ r ∈ objSet m pf.1 "", r.2 ≠ "" → r.2 ≠ dbField := by
      intro r hr hrne hrd
      rcases (hm1mem r).mp hr with hr' | ⟨hrm, hrk⟩
      · exact hrne (congrArg Prod.snd hr')
      · exact hrk (congrArg Prod.fst (h1 r hrm pf hmpf hrne (by rw [hrd, hpf2])))
    rw [hsc]
    by_cases hv : (v != "") = true
    · rw [if_pos hv]
      refine ⟨KeysNodup_objSet _ v dbField hm1nodup, ?_, ?_⟩
      · intro p hp q hq hpne hpq
        rcases (objSet_mem _ v dbField p).mp hp with hp' | ⟨hpm, hpk⟩ <;>
          rcases (objSet_mem _ v dbField q).mp hq with hq' | ⟨hqm, hqk⟩
        · rw [hp', hq']
        · exfalso
          apply hm1nof q hqm
          · rw [← hpq]
            exact hpne
          · rw [← hpq, hp']
        · exfalso
          apply hm1nof p hpm hpne
          rw [hpq, hq']
        · exact hm1one p hpm q hqm hpne hpq
      · intro p hp hpd hpne hpv
        have hppf : p = pf := h1 p hp pf hmpf hpne (by rw [hpd, hpf2])
        have hg1 : objGet (objSet m pf.1 "") p.1 = "" := by
          rw [hppf]
          exact objGet_objSet_self m pf.1 ""
        rw [objGet_objSet_ne _ v dbField p.1 hpv, hg1]
    · rw [if_neg hv]
      refine ⟨hm1nodup, hm1one, ?_⟩
      intro p hp hpd hpne _
      have hppf : p = pf := h1 p hp pf hmpf hpne (by rw [hpd, hpf2])
      rw [hppf]
      exact objGet_objSet_self m pf.1 ""

/-- Witness for C5: applying the select handler to a concrete one-entry
mapping preserves the one-to-one invariant. -/
theorem claim_c5_witness :
    OneToOne (selectFieldChange [("colA", "last_name")] "last_name" "colB") :=
  (claim_c5_select_one_to_one [("colA", "last_name")]
    (by unfold KeysNodup; decide) (by unfold OneToOne; decide) (by decide)
    "last_name" "colB").2.1

/-! ## Month normalization and export (claim C8) -/

theorem lookup_some_mem :
    ∀ (l : List (String × String)) (a v : String), l.lookup a = some v → (a, v) ∈ l := by
  intro l
  induction l with
  | nil => intro a v h; simp [List.lookup] at h
  | cons p rest ih =>
    intro a v h
    obtain ⟨k, w⟩ := p
    rw [List.lookup_cons] at h
    by_cases hak : (a == k) = true
    · simp only [hak] at h
      have hk : a = k := eq_of_beq hak
      injection h with hv
      rw [hk, hv]
      exact List.mem_cons_self _ _
    · have hak' : (a == k) = false := by
        cases hq : (a == k) with
        | true => exact absurd hq hak
        | false => rfl
      simp only [hak'] at h
      exact List.mem_cons_of_mem _ (ih a v h)

theorem convertMonth_some (m : String) (hm : m ≠ "") :
    convertMonthToNumber (some m) =
      (if trimStr (lowerStr m) ∈ monthNumStrings then padStart2 (trimStr (lowerStr m))
       else
        match MONTH_MAP.lookup (trimStr (lowerStr m)) with
        | some v => v
        | none => trimStr (lowerStr m)) := by
  have h1 : convertMonthToNumber (some m) =
      (if (m == "") = true then ""
       else
        if trimStr (lowerStr m) ∈ monthNumStrings then padStart2 (trimStr (lowerStr m))
        else
          match MONTH_MAP.lookup (trimStr (lowerStr m)) with
          | some v => v
          | none => trimStr (lowerStr m)) := rfl
  rw [h1, if_neg (by simp [hm])]

/-- Counterexample for C8 as stated: the unrecognized value `"JAN"` (not a
full month name, not a numeric string 1–12, not empty) is not passed through
unchanged — the function returns its lowercased, trimmed form. -/
theorem claim_c8_counterexample :
    convertMonthToNumber (some "JAN") = "jan" ∧ "jan" ≠ "JAN" := by
  exact ⟨by decide, by decide⟩

/-- Claim C8 (amended): `convertMonthToNumber` maps a missing or empty input
to the empty string; an input whose lowercased, trimmed form is a full
English month name to its two-digit month number; an input whose normalized
form is one of the canonical numeric strings 1–12 to that string left-padded
with zero to two digits; and passes every other value through lowercased and
trimmed (not unchanged); export renders the birth-month cell of every
exported row through this normalization. -/
theorem claim_c8_convert_month :
    convertMonthToNumber none = "" ∧
    convertMonthToNumber (some "") = "" ∧
    (∀ m v, m ≠ "" → MONTH_MAP.lookup (trimStr (lowerStr m)) = some v →
      convertMonthToNumber (some m) = v) ∧
    (∀ m, m ≠ "" → trimStr (lowerStr m) ∈ monthNumStrings →
      convertMonthToNumber (some m) = padStart2 (trimStr (lowerStr m))) ∧
    (∀ m, m ≠ "" → trimStr (lowerStr m) ∉ monthNumStrings →
      MONTH_MAP.lookup (trimStr (lowerStr m)) = none →
      convertMonthToNumber (some m) = trimStr (lowerStr m)) ∧
    (∀ bs row, row ∈ handleExport bs → ∃ b, b ∈ bs ∧ isRowEmpty b = false ∧
      row.lookup "Birth Month" = some (convertMonthToNumber b.birth_month)) := by
  refine ⟨rfl, rfl, ?_, ?_, ?_, ?_⟩
  · intro m v hm hlook
    rw [convertMonth_some m hm]
    have hmem := lookup_some_mem MONTH_MAP _ v hlook
    have hnotnum : ∀ p ∈ MONTH_MAP, p.1 ∉ monthNumStrings := by decide
    rw [if_neg (hnotnum _ hmem), hlook]
  · intro m hm hmem
    rw [convertMonth_some m hm, if_pos hmem]
  · intro m hm hmem hlook
    rw [convertMonth_some m hm, if_neg hmem, hlook]
  · intro bs row hrow
    obtain ⟨b, hb, hrow'⟩ := List.mem_map.mp hrow
    obtain ⟨hbbs, hbne⟩ := List.mem_filter.mp hb
    refine ⟨b, hbbs, by simpa using hbne, ?_⟩
    rw [← hrow']
    rfl

/-- Witness for C8: a month name in capitals with surrounding whitespace is
normalized to its two-digit number. -/
theorem claim_c8_witness : convertMonthToNumber (some " MARCH ") = "03" :=
  claim_c8_convert_month.2.2.1 " MARCH " "03" (by decide) (by decide)

/-! ## Empty-row classification, display and export (claim C9) -/

/-- Claim C9: a record is classified empty by `isRowEmpty` exactly when each
of the twenty schema fields is absent or empty (zero, for the numeric
`amount`); the attached document id does not affect the classification;
every record in the loaded display list is non-empty, a non-empty stored
record is never dropped from it, every exported row comes from a non-empty
record, and a non-empty record's row is always exported. -/
theorem claim_c9_empty_rows (b : Beneficiary) :
    (isRowEmpty b = true ↔
      (emptyOptStr b.last_name ∧ emptyOptStr b.first_name ∧ emptyOptStr b.middle_name ∧
       emptyOptStr b.extension_name ∧ emptyOptStr b.birth_month ∧ emptyOptStr b.birth_day ∧
       emptyOptStr b.birth_year ∧ emptyOptStr b.sex ∧ emptyOptStr b.barangay ∧
       emptyOptStr b.psgc_city ∧ emptyOptStr b.city ∧ emptyOptStr b.province ∧
       emptyOptStr b.type_of_assistance ∧ (b.amount = none ∨ b.amount = some 0) ∧
       emptyOptStr b.philsys_number ∧ emptyOptStr b.beneficiary_uniq ∧
       emptyOptStr b.contact_number ∧ emptyOptStr b.target_sector ∧
       emptyOptStr b.sub_category ∧ emptyOptStr b.civil_status)) ∧
    (∀ id, isRowEmpty { b with docId := some id } = isRowEmpty b) ∧
    (∀ docs, b ∈ loadBeneficiaries docs → isRowEmpty b = false) ∧
    (∀ docs id, (id, b) ∈ docs → isRowEmpty b = false →
      { b with docId := some id } ∈ loadBeneficiaries docs) ∧
    (∀ bs row, row ∈ handleExport bs →
      ∃ c, c ∈ bs ∧ isRowEmpty c = false ∧ row = exportRow c) ∧
    (∀ bs, b ∈ bs → isRowEmpty b = false → exportRow b ∈ handleExport bs) := by
  refine ⟨?_, fun id => rfl, ?_, ?_, ?_, ?_⟩
  · simp [isRowEmpty, COLUMN_HEADERS, isEmptyVal, getStrField, emptyOptStr]
  · intro docs hmem
    obtain ⟨_, hfb⟩ := List.mem_filter.mp hmem
    simpa using hfb
  · intro docs id hmem hne
    apply List.mem_filter.mpr
    refine ⟨List.mem_map.mpr ⟨(id, b), hmem, rfl⟩, ?_⟩
    have hne' : isRowEmpty { b with docId := some id } = false := hne
    simp [hne']
  · intro bs row hrow
    obtain ⟨c, hc, hrow'⟩ := List.mem_map.mp hrow
    obtain ⟨hcbs, hcne⟩ := List.mem_filter.mp hc
    exact ⟨c, hcbs, by simpa using hcne, hrow'.symm⟩
  · intro bs hmem hne
    apply List.mem_map.mpr
    refine ⟨b, List.mem_filter.mpr ⟨hmem, by simp [hne]⟩, rfl⟩

/-- Witness for C9: a record whose only content is a name is not empty and
appears in the loaded list; the all-defaults record is empty and the loaded
list of a store holding only it is empty. -/
theorem claim_c9_witness :
    ({ last_name := some "x", docId := some "d1" } : Beneficiary) ∈
      loadBeneficiaries [("d1", { last_name := some "x" })] :=
  (claim_c9_empty_rows { last_name := some "x" }).2.2.2.1
    [("d1", { last_name := some "x" })] "d1" (by decide) (by decide)

/-! ## Duplicate detection (claims C1 and C2) -/

theorem addToGroup_val_self (acc : List (String × List Beneficiary)) (k : String)
    (b : Beneficiary) : groupVal (addToGroup acc k b) k = groupVal acc k ++ [b] := by
  by_cases hany : acc.any (fun p => p.1 == k) = true
  · rw [addToGroup, if_pos hany, groupVal, List.find?_map]
    have hpred : ((fun p : String × List Beneficiary => p.1 == k) ∘
        fun p => if p.1 == k then (p.1, p.2 ++ [b]) else p) =
        fun p : String × List Beneficiary => p.1 == k := by
      funext p
      by_cases hp : (p.1 == k) = true
      · simp [Function.comp, hp]
      · simp [Function.comp, hp]
    rw [hpred]
    obtain ⟨x, hx, hxk⟩ := List.any_eq_true.mp hany
    have hsome : (acc.find? (fun p => p.1 == k)).isSome = true :=
      List.find?_isSome.mpr ⟨x, hx, hxk⟩
    obtain ⟨p0, hp0⟩ := Option.isSome_iff_exists.mp hsome
    have hp0k := List.find?_some hp0
    have hp1 : p0.1 = k := eq_of_beq hp0k
    rw [hp0, groupVal, hp0]
    simp [hp0k, hp1]
  · rw [addToGroup, if_neg hany, groupVal, List.find?_append]
    have hnone : acc.find? (fun p => p.1 == k) = none := by
      rw [List.find?_eq_none]
      intro x hx hxk
      exact hany (List.any_eq_true.mpr ⟨x, hx, hxk⟩)
    rw [hnone, List.find?_cons_of_pos _ (by simp), groupVal, hnone]
    simp

theorem addToGroup_val_ne (acc : List (String × List Beneficiary)) (k k' : String)
    (b : Beneficiary) (h : k' ≠ k) :
    groupVal (addToGroup acc k b) k' = groupVal acc k' := by
  have hkk' : (k == k') = false := beq_eq_false_iff_ne.mpr (fun hh => h hh.symm)
  by_cases hany : acc.any (fun p => p.1 == k) = true
  · rw [addToGroup, if_pos hany, groupVal, List.find?_map]
    have hpred : ((fun p : String × List Beneficiary => p.1 == k') ∘
        fun p => if p.1 == k then (p.1, p.2 ++ [b]) else p) =
        fun p : String × List Beneficiary => p.1 == k' := by
      funext p
      by_cases hp : (p.1 == k) = true
      · simp [Function.comp, hp]
      · simp [Function.comp, hp]
    rw [hpred, groupVal]
    cases hp0 : acc.find? (fun p => p.1 == k') with
    | none => simp
    | some p0 =>
      have hp0k := List.find?_some hp0
      have hne : ¬((p0.1 == k) = true) := by
        intro hb
        exact h ((eq_of_beq hp0k).symm.trans (eq_of_beq hb))
      simp only [Option.map_some', if_neg hne]
  · rw [addToGroup, if_neg hany, groupVal, List.find?_append, groupVal]
    cases hp0 : acc.find? (fun p => p.1 == k') with
    | none =>
      rw [List.find?_cons_of_neg _ (by simp [hkk'])]
      simp
    | some p0 => simp

theorem groupFold_val :
    ∀ (bs : List Beneficiary) (acc : List (String × List Beneficiary)) (k : String),
      groupVal (bs.foldl (fun a b => addToGroup a (dupKey b) b) acc) k =
        groupVal acc k ++ bs.filter (fun b => dupKey b == k) := by
  intro bs
  induction bs with
  | nil => intro acc k; simp
  | cons r rest ih =>
    intro acc k
    rw [List.foldl_cons, ih]
    by_cases hk : (dupKey r == k) = true
    · have hk' : dupKey r = k := eq_of_beq hk
      have hfc : List.filter (fun b => dupKey b == k) (r :: rest) =
          r :: List.filter (fun b => dupKey b == k) rest :=
        List.filter_cons_of_pos hk
      rw [hfc, ← hk', addToGroup_val_self, List.append_assoc, List.singleton_append]
    · have hfc : List.filter (fun b => dupKey b == k) (r :: rest) =
          List.filter (fun b => dupKey b == k) rest :=
        List.filter_cons_of_neg hk
      rw [hfc, addToGroup_val_ne acc (dupKey r) k r (fun hh => hk (beq_iff_eq.mpr hh.symm))]

theorem addToGroup_keys_nodup (acc : List (String × List Beneficiary)) (k : String)
    (b : Beneficiary) (h : (acc.map (fun p => p.1)).Nodup) :
    ((addToGroup acc k b).map (fun p => p.1)).Nodup := by
  by_cases hany : acc.any (fun p => p.1 == k) = true
  · rw [addToGroup, if_pos hany, List.map_map]
    have hpred : ((fun p : String × List Beneficiary => p.1) ∘
        fun p => if p.1 == k then (p.1, p.2 ++ [b]) else p) =
        fun p : String × List Beneficiary => p.1 := by
      funext p
      by_cases hp : (p.1 == k) = true
      · simp [Function.comp, hp]
      · simp [Function.comp, hp]
    rw [hpred]
    exact h
  · rw [addToGroup, if_neg hany, List.map_append]
    refine List.nodup_append.mpr ⟨h, List.nodup_singleton k, ?_⟩
    intro a ha hb
    rw [List.map_singleton, List.mem_singleton] at hb
    subst hb
    obtain ⟨q, hq, hqa⟩ := List.mem_map.mp ha
    exact hany (List.any_eq_true.mpr ⟨q, hq, by rw [hqa]; simp⟩)

theorem groupFold_keys_nodup :
    ∀ (bs : List Beneficiary) (acc : List (String × List Beneficiary)),
      (acc.map (fun p => p.1)).Nodup →
      (((bs.foldl (fun a b => addToGroup a (dupKey b) b) acc)).map (fun p => p.1)).Nodup := by
  intro bs
  induction bs with
  | nil => intro acc h; exact h
  | cons r rest ih =>
    intro acc h
    rw [List.foldl_cons]
    exact ih _ (addToGroup_keys_nodup acc (dupKey r) r h)

theorem mem_find?_of_keys_nodup (l : List (String × List Beneficiary))
    (p : String × List Beneficiary) (hnd : (l.map (fun q => q.1)).Nodup) (hp : p ∈ l) :
    l.find? (fun q => q.1 == p.1) = some p := by
  induction l with
  | nil => simp at hp
  | cons a t ih =>
    rcases List.mem_cons.mp hp with rfl | hp'
    · exact List.find?_cons_of_pos t (by simp)
    · rw [List.map_cons] at hnd
      have hcons := List.nodup_cons.mp hnd
      have hne : ¬((a.1 == p.1) = true) := by
        intro hb
        exact hcons.1 (by
          rw [eq_of_beq hb]
          exact List.mem_map.mpr ⟨p, hp', rfl⟩)
      have hfc : List.find? (fun q => q.1 == p.1) (a :: t) =
          List.find? (fun q => q.1 == p.1) t :=
        List.find?_cons_of_neg _ hne
      rw [hfc]
      exact ih hcons.2 hp'

theorem groupByKey_entry (bs : List Beneficiary) :
    ∀ p ∈ groupByKey bs, p.2 = bs.filter (fun b => dupKey b == p.1) := by
  intro p hp
  have hnodup : ((groupByKey bs).map (fun q => q.1)).Nodup :=
    groupFold_keys_nodup bs [] (by simp)
  have hfind := mem_find?_of_keys_nodup (groupByKey bs) p hnodup hp
  have hval : groupVal (groupByKey bs) p.1 =
      groupVal [] p.1 ++ bs.filter (fun b => dupKey b == p.1) :=
    groupFold_val bs [] p.1
  rw [groupVal, hfind] at hval
  simpa [groupVal] using hval

theorem groupByKey_key_mem (bs : List Beneficiary) (r : Beneficiary) (hr : r ∈ bs) :
    ∃ p ∈ groupByKey bs, p.1 = dupKey r ∧ r ∈ p.2 := by
  have hval : groupVal (groupByKey bs) (dupKey r) =
      groupVal [] (dupKey r) ++ bs.filter (fun b => dupKey b == dupKey r) :=
    groupFold_val bs [] (dupKey r)
  have hrf : r ∈ bs.filter (fun b => dupKey b == dupKey r) :=
    List.mem_filter.mpr ⟨hr, by simp⟩
  rw [show groupVal [] (dupKey r) = [] from rfl, List.nil_append] at hval
  cases hfind : (groupByKey bs).find? (fun p => p.1 == dupKey r) with
  | none =>
    exfalso
    rw [groupVal, hfind] at hval
    simp only [Option.map_none', Option.getD_none] at hval
    rw [← hval] at hrf
    simp at hrf
  | some p =>
    have hpkb : (p.1 == dupKey r) = true := by
      have hb := List.find?_some hfind
      exact hb
    have hpk : p.1 = dupKey r := eq_of_beq hpkb
    have hmem := List.mem_of_find?_eq_some hfind
    rw [groupVal, hfind] at hval
    simp only [Option.map_some', Option.getD_some] at hval
    exact ⟨p, hmem, hpk, by rw [hval]; exact hrf⟩

theorem two_mem_length {α : Type} {l : List α} {x y : α}
    (hx : x ∈ l) (hy : y ∈ l) (hne : x ≠ y) : 1 < l.length := by
  induction l with
  | nil => simp at hx
  | cons a t ih =>
    rcases List.mem_cons.mp hx with rfl | hx'
    · rcases List.mem_cons.mp hy with rfl | hy'
      · exact absurd rfl hne
      · have hpos := List.length_pos_of_mem hy'
        simp only [List.length_cons]
        omega
    · have hpos := List.length_pos_of_mem hx'
      simp only [List.length_cons]
      omega

theorem sameGroup_iff (bs : List Beneficiary) (r1 r2 : Beneficiary)
    (h1 : r1 ∈ bs) (h2 : r2 ∈ bs) (hne : r1 ≠ r2) :
    (∃ G ∈ findDuplicates bs, r1 ∈ G ∧ r2 ∈ G) ↔ dupKey r1 = dupKey r2 := by
  constructor
  · rintro ⟨G, hG, hr1, hr2⟩
    obtain ⟨hGm, _⟩ := List.mem_filter.mp hG
    obtain ⟨p, hp, hpG⟩ := List.mem_map.mp hGm
    have hpe := groupByKey_entry bs p hp
    rw [← hpG, hpe] at hr1 hr2
    have hk1 : (dupKey r1 == p.1) = true := (List.mem_filter.mp hr1).2
    have hk2 : (dupKey r2 == p.1) = true := (List.mem_filter.mp hr2).2
    rw [eq_of_beq hk1, eq_of_beq hk2]
  · intro hk
    have hr1G : r1 ∈ bs.filter (fun b => dupKey b == dupKey r1) :=
      List.mem_filter.mpr ⟨h1, by simp⟩
    have hr2G : r2 ∈ bs.filter (fun b => dupKey b == dupKey r1) :=
      List.mem_filter.mpr ⟨h2, by rw [← hk]; simp⟩
    obtain ⟨p, hp, hp1, _⟩ := groupByKey_key_mem bs r1 h1
    have hpe := groupByKey_entry bs p hp
    have hG : p.2 = bs.filter (fun b => dupKey b == dupKey r1) := by
      rw [hpe, hp1]
    have hlen : 1 < p.2.length := by
      rw [hG]
      exact two_mem_length hr1G hr2G hne
    refine ⟨p.2, ?_, by rw [hG]; exact hr1G, by rw [hG]; exact hr2G⟩
    unfold findDuplicates
    apply List.mem_filter.mpr
    exact ⟨List.mem_map.mpr ⟨p, hp, rfl⟩, by simpa using hlen⟩

theorem strData_inj (s t : String) (h : s.data = t.data) : s = t := by
  cases s
  cases t
  exact congrArg String.mk h

theorem data_append (s t : String) : (s ++ t).data = s.data ++ t.data := rfl

theorem splitFirstBar :
    ∀ (l1 l2 r1 r2 : List Char), '|' ∉ l1 → '|' ∉ l2 →
      l1 ++ '|' :: r1 = l2 ++ '|' :: r2 → l1 = l2 ∧ r1 = r2 := by
  intro l1
  induction l1 with
  | nil =>
    intro l2 r1 r2 _ hn2 h
    cases l2 with
    | nil => simpa using h
    | cons c t =>
      exfalso
      simp only [List.nil_append, List.cons_append, List.cons.injEq] at h
      exact hn2 (by rw [← h.1]; exact List.mem_cons_self _ _)
  | cons c t ih =>
    intro l2 r1 r2 hn1 hn2 h
    cases l2 with
    | nil =>
      exfalso
      simp only [List.nil_append, List.cons_append, List.cons.injEq] at h
      exact hn1 (by rw [h.1]; exact List.mem_cons_self _ _)
    | cons c' t' =>
      simp only [List.cons_append, List.cons.injEq] at h
      obtain ⟨hc, ht⟩ := h
      have hn1' : '|' ∉ t := fun hh => hn1 (List.mem_cons_of_mem _ hh)
      have hn2' : '|' ∉ t' := fun hh => hn2 (List.mem_cons_of_mem _ hh)
      obtain ⟨hte, hre⟩ := ih t' r1 r2 hn1' hn2' ht
      exact ⟨by rw [hc, hte], hre⟩

theorem joinBar_cons_data (a b : String) (rest : List String) :
    (joinBar (a :: b :: rest)).data = a.data ++ '|' :: (joinBar (b :: rest)).data := by
  show ((a ++ "|") ++ joinBar (b :: rest)).data = _
  rw [data_append, data_append]
  simp

theorem joinBar_inj :
    ∀ (xs ys : List String), xs.length = ys.length →
      (∀ s ∈ xs, '|' ∉ s.data) → (∀ s ∈ ys, '|' ∉ s.data) →
      joinBar xs = joinBar ys → xs = ys := by
  intro xs
  induction xs with
  | nil =>
    intro ys hlen _ _ _
    cases ys with
    | nil => rfl
    | cons c u => simp at hlen
  | cons a t ih =>
    intro ys hlen hx hy h
    cases ys with
    | nil => simp at hlen
    | cons c u =>
      cases t with
      | nil =>
        cases u with
        | nil =>
          have : a = c := h
          rw [this]
        | cons u1 ut =>
          exfalso
          simp only [List.length_cons, List.length_nil] at hlen
          omega
      | cons t1 tt =>
        cases u with
        | nil =>
          exfalso
          simp only [List.length_cons, List.length_nil] at hlen
          omega
        | cons u1 ut =>
          have hd := congrArg String.data h
          rw [joinBar_cons_data a t1 tt, joinBar_cons_data c u1 ut] at hd
          obtain ⟨hac, hrest⟩ := splitFirstBar a.data c.data _ _
            (hx a (List.mem_cons_self _ _)) (hy c (List.mem_cons_self _ _)) hd
          have hae : a = c := strData_inj a c hac
          have hje : joinBar (t1 :: tt) = joinBar (u1 :: ut) :=
            strData_inj _ _ hrest
          have hlen' : (t1 :: tt).length = (u1 :: ut).length := by
            simp only [List.length_cons] at hlen ⊢
            omega
          have hte := ih (u1 :: ut) hlen'
            (fun s hs => hx s (List.mem_cons_of_mem _ hs))
            (fun s hs => hy s (List.mem_cons_of_mem _ hs)) hje
          rw [hae, hte]

theorem dupKey_eq_iff (b1 b2 : Beneficiary) (hb1 : BarFree b1) (hb2 : BarFree b2) :
    dupKey b1 = dupKey b2 ↔ keyFieldsLower b1 = keyFieldsLower b2 := by
  constructor
  · intro h
    exact joinBar_inj (keyFieldsLower b1) (keyFieldsLower b2) rfl hb1 hb2 h
  · intro h
    unfold dupKey
    rw [h]

/-- Claim C1 (amended): `findDuplicates` groups records by the composite key
obtained by lowercasing the six fields last/first/middle name and birth
month/day/year (a missing field becoming the empty string) and joining them
with the delimiter `'|'`, and returns exactly the groups with more than one
member; two distinct records land in a common returned group exactly when
their joined keys coincide. Because `'|'` can itself occur in field values,
key coincidence is equivalent to componentwise equality of the six lowercased
fields only for records whose key fields are free of the delimiter (the
counterexample shows the equivalence fails otherwise); under that
proviso the case-insensitivity and blank-name properties of the claim hold. -/
theorem claim_c1_duplicate_grouping (bs : List Beneficiary) (r1 r2 : Beneficiary)
    (h1 : r1 ∈ bs) (h2 : r2 ∈ bs) (hne : r1 ≠ r2) :
    ((∃ G ∈ findDuplicates bs, r1 ∈ G ∧ r2 ∈ G) ↔ dupKey r1 = dupKey r2) ∧
    (BarFree r1 → BarFree r2 →
      ((∃ G ∈ findDuplicates bs, r1 ∈ G ∧ r2 ∈ G) ↔
        keyFieldsLower r1 = keyFieldsLower r2)) := by
  have hmain := sameGroup_iff bs r1 r2 h1 h2 hne
  exact ⟨hmain, fun hb1 hb2 => hmain.trans (dupKey_eq_iff r1 r2 hb1 hb2)⟩

/-- Counterexample for C1 as stated: the join delimiter `'|'` can occur in
field values, so the key is not built with "a delimiter that does not appear
in the field values" — the records `cexA` (last name `a|b`) and `cexB` (last
name `a`, first name `b`) have different six-field tuples yet identical
composite keys, and `findDuplicates` groups them together. -/
theorem claim_c1_counterexample :
    findDuplicates [cexA, cexB] = [[cexA, cexB]] ∧
    keyFieldsLower cexA ≠ keyFieldsLower cexB ∧
    dupKey cexA = dupKey cexB := by
  exact ⟨by decide, by decide, by decide⟩

/-- Witness for C1: two records whose names differ only by letter case and
whose (absent) birth-date fields agree are grouped together. -/
theorem claim_c1_witness :
    ∃ G ∈ findDuplicates
      [{ last_name := some "Smith" }, { last_name := some "SMITH", docId := some "d2" }],
      ({ last_name := some "Smith" } : Beneficiary) ∈ G ∧
      ({ last_name := some "SMITH", docId := some "d2" } : Beneficiary) ∈ G :=
  (claim_c1_duplicate_grouping
    [{ last_name := some "Smith" }, { last_name := some "SMITH", docId := some "d2" }]
    { last_name := some "Smith" } { last_name := some "SMITH", docId := some "d2" }
    (by decide) (by decide) (by decide)).1.mpr (by decide)

theorem foldl_add_sum :
    ∀ (l : List (List Beneficiary)) (n : Nat),
      l.foldl (fun s g => s + (g.length - 1)) n = n + (l.map (fun g => g.length - 1)).sum := by
  intro l
  induction l with
  | nil => intro n; simp
  | cons g t ih =>
    intro n
    rw [List.foldl_cons, ih, List.map_cons, List.sum_cons]
    omega

theorem filterMap_truthy :
    ∀ (l : List Beneficiary),
      (∀ r ∈ l, ∃ id, r.docId = some id ∧ id ≠ "") →
      l.filterMap truthyDocId = l.map (fun r => strOrEmpty r.docId) := by
  intro l
  induction l with
  | nil => intro _; rfl
  | cons r t ih =>
    intro h
    obtain ⟨id, hid, hne⟩ := h r (List.mem_cons_self _ _)
    have ht : truthyDocId r = some id := by
      unfold truthyDocId
      rw [hid]
      show (if (id != "") = true then some id else none) = some id
      rw [if_pos (bne_iff_ne.mpr hne)]
    have hs : strOrEmpty r.docId = id := by rw [hid]; rfl
    rw [List.filterMap_cons, ht, List.map_cons, hs,
      ih (fun q hq => h q (List.mem_cons_of_mem _ hq))]

theorem findDuplicates_group (bs : List Beneficiary) :
    ∀ G ∈ findDuplicates bs,
      (∃ k, G = bs.filter (fun b => dupKey b == k)) ∧ 1 < G.length := by
  intro G hG
  obtain ⟨hGm, hGl⟩ := List.mem_filter.mp hG
  obtain ⟨p, hp, hpG⟩ := List.mem_map.mp hGm
  exact ⟨⟨p.1, by rw [← hpG]; exact groupByKey_entry bs p hp⟩, by simpa using hGl⟩

theorem mem_take_one {α : Type} {l : List α} {r : α} (h : r ∈ l.take 1) :
    ∃ t, l = r :: t := by
  cases l with
  | nil => simp at h
  | cons a t =>
    have : r = a := by simpa using h
    exact ⟨t, by rw [this]⟩

/-- Claim C2: `handleRemoveDuplicates` performs no deletion unless the caller
confirms; before any deletion it reports the total candidate count, the sum
over duplicate groups of the group size minus one (no dialog is shown when
there are no duplicate groups); and, whenever every record carries a
distinct non-empty document id (as records loaded from the store do), a
confirmed run deletes exactly the ids of every group member after the
first-encountered one, while the first member of each group is never
deleted. -/
theorem claim_c2_remove_duplicates (bs : List Beneficiary) (confirmed : Bool) :
    (confirmed = false → (handleRemoveDuplicates bs confirmed).deletedIds = []) ∧
    ((handleRemoveDuplicates bs confirmed).reportedCount =
      if findDuplicates bs = [] then none
      else some (((findDuplicates bs).map (fun g => g.length - 1)).sum)) ∧
    ((∀ r ∈ bs, ∃ id, r.docId = some id ∧ id ≠ "") →
      (bs.map (fun r => r.docId)).Nodup → confirmed = true →
      (handleRemoveDuplicates bs confirmed).deletedIds =
        ((findDuplicates bs).map
          (fun g => (g.drop 1).map (fun r => strOrEmpty r.docId))).flatten ∧
      ∀ G ∈ findDuplicates bs, ∀ r ∈ G.take 1,
        strOrEmpty r.docId ∉ (handleRemoveDuplicates bs confirmed).deletedIds) := by
  by_cases hemp : findDuplicates bs = []
  · have h0 : handleRemoveDuplicates bs confirmed = ⟨none, []⟩ := by
      unfold handleRemoveDuplicates
      rw [hemp]
      rfl
    refine ⟨fun _ => by rw [h0], by rw [h0, if_pos hemp], fun _ _ _ => ⟨?_, ?_⟩⟩
    · rw [h0, hemp]
      rfl
    · intro G hG
      rw [hemp] at hG
      simp at hG
  · have hlen : ¬(((findDuplicates bs).length == 0) = true) := by
      intro hb
      exact hemp (List.length_eq_zero.mp (by simpa using hb))
    have h1 : handleRemoveDuplicates bs confirmed =
        (if confirmed then
          (⟨some ((findDuplicates bs).foldl (fun s g => s + (g.length - 1)) 0),
            ((findDuplicates bs).map
              (fun g => (g.drop 1).filterMap truthyDocId)).flatten⟩ :
            RemoveDuplicatesOutcome)
         else
          ⟨some ((findDuplicates bs).foldl (fun s g => s + (g.length - 1)) 0), []⟩) := by
      unfold handleRemoveDuplicates
      rw [if_neg hlen]
    have hsum : (findDuplicates bs).foldl (fun s g => s + (g.length - 1)) 0 =
        ((findDuplicates bs).map (fun g => g.length - 1)).sum := by
      rw [foldl_add_sum]
      omega
    cases confirmed with
    | false =>
      rw [h1, if_neg (by simp)]
      refine ⟨fun _ => rfl, by rw [if_neg hemp, hsum], fun _ _ hc => by cases hc⟩
    | true =>
      rw [h1, if_pos rfl]
      have hmem_bs : ∀ G ∈ findDuplicates bs, ∀ r ∈ G, r ∈ bs := by
        intro G hG r hr
        obtain ⟨⟨k, hGf⟩, _⟩ := findDuplicates_group bs G hG
        rw [hGf] at hr
        exact (List.mem_filter.mp hr).1
      refine ⟨?_, ?_, ?_⟩
      · intro hc
        cases hc
      · rw [if_neg hemp, hsum]
      · intro hid hnd _
        refine ⟨?_, ?_⟩
        · show ((findDuplicates bs).map
              (fun g => (g.drop 1).filterMap truthyDocId)).flatten =
            ((findDuplicates bs).map
              (fun g => (g.drop 1).map (fun r => strOrEmpty r.docId))).flatten
          congr 1
          apply List.map_congr_left
          intro G hG
          apply filterMap_truthy
          intro r hr
          exact hid r (hmem_bs G hG r (List.mem_of_mem_drop hr))
        · intro G hG r hr hin
          have hconv : ((findDuplicates bs).map
              (fun g => (g.drop 1).filterMap truthyDocId)).flatten =
              ((findDuplicates bs).map
                (fun g => (g.drop 1).map (fun q => strOrEmpty q.docId))).flatten := by
            congr 1
            apply List.map_congr_left
            intro G' hG'
            apply filterMap_truthy
            intro q hq
            exact hid q (hmem_bs G' hG' q (List.mem_of_mem_drop hq))
          rw [hconv] at hin
          obtain ⟨ids, hids, hin'⟩ := List.mem_flatten.mp hin
          obtain ⟨G', hG', hids'⟩ := List.mem_map.mp hids
          rw [← hids'] at hin'
          obtain ⟨r', hr', heq⟩ := List.mem_map.mp hin'
          obtain ⟨tG, hGeq⟩ := mem_take_one hr
          have hrG : r ∈ G := by rw [hGeq]; exact List.mem_cons_self _ _
          have hrbs : r ∈ bs := hmem_bs G hG r hrG
          have hr'G' : r' ∈ G' := List.mem_of_mem_drop hr'
          have hr'bs : r' ∈ bs := hmem_bs G' hG' r' hr'G'
          obtain ⟨idr, hidr, _⟩ := hid r hrbs
          obtain ⟨idr', hidr', _⟩ := hid r' hr'bs
          have hdoc : r'.docId = r.docId := by
            rw [hidr, hidr']
            have h1' : strOrEmpty r'.docId = idr' := by rw [hidr']; rfl
            have h2' : strOrEmpty r.docId = idr := by rw [hidr]; rfl
            rw [h1', h2'] at heq
            rw [heq]
          have hrr : r' = r := List.inj_on_of_nodup_map hnd hr'bs hrbs hdoc
          obtain ⟨⟨k, hGf⟩, _⟩ := findDuplicates_group bs G hG
          obtain ⟨⟨k', hGf'⟩, _⟩ := findDuplicates_group bs G' hG'
          have hkk : (dupKey r == k) = true := by
            have hh : r ∈ bs.filter (fun b => dupKey b == k) := by
              rw [← hGf]
              exact hrG
            exact (List.mem_filter.mp hh).2
          have hkk' : (dupKey r == k') = true := by
            have hh : r ∈ bs.filter (fun b => dupKey b == k') := by
              rw [← hGf', ← hrr]
              exact hr'G'
            exact (List.mem_filter.mp hh).2
          have hGG' : G = G' := by
            rw [hGf, hGf', ← eq_of_beq hkk, ← eq_of_beq hkk']
          have hbsnd : bs.Nodup := List.Nodup.of_map _ hnd
          have hGnd : G.Nodup := by
            rw [hGf]
            exact List.Nodup.filter _ hbsnd
          have hrtG : r ∈ tG := by
            have hdropG : G.drop 1 = tG := by rw [hGeq]; rfl
            have hh : r ∈ G'.drop 1 := by rw [← hrr]; exact hr'
            rw [← hGG', hdropG] at hh
            exact hh
          rw [hGeq] at hGnd
          exact (List.nodup_cons.mp hGnd).1 hrtG

/-- Witness for C2: for a store of two records sharing one composite key
(distinct document ids `1` and `2`), the confirmed run deletes exactly the id
of the second-encountered record. -/
theorem claim_c2_witness :
    (handleRemoveDuplicates [dupW1, dupW2] true).deletedIds =
      ((findDuplicates [dupW1, dupW2]).map
        (fun g => (g.drop 1).map (fun r => strOrEmpty r.docId))).flatten :=
  ((claim_c2_remove_duplicates [dupW1, dupW2] true).2.2 (by decide) (by decide) rfl).1
